import Mathlib

/-!
Verification development for a keyword-search tool with two concurrency
realizations (threading_search.py and multiprocessing_search.py).

The Python code is shallowly embedded below: file contents are lists of
characters, the directory is an association list from path to optional
content (`none` models an unreadable file), and each worker is modelled by
the pure function computing the local results it accumulates before the
merge step.  Python dictionaries are modelled as association lists with
dict semantics (unique keys, insertion order, in-place update).
-/

/-- A word character in the sense of the regex class backslash-w restricted
to ASCII: letters, digits and the underscore.  Both Python files build the
pattern from a word-boundary marker, the escaped lowercased keyword and a
closing word-boundary marker (threading_search.py line 51,
multiprocessing_search.py line 34). -/
def isWordChar (c : Char) : Bool := c.isAlphanum || c == '_'

/-- Word-character test of the character at index `i`, `false` past the end
of the string.  Used to express regex word boundaries. -/
def charAtIsWord (s : List Char) (i : Nat) : Bool :=
  match s[i]? with
  | some c => isWordChar c
  | none => false

/-- A regex word boundary holds at position `i` of `s` when exactly one of
the two adjacent positions holds a word character; positions outside the
string count as non-word. -/
def isBoundary (s : List Char) (i : Nat) : Bool :=
  ((i != 0) && charAtIsWord s (i - 1)) != charAtIsWord s i

/-- The literal characters of `kw` occur in `content` starting at index
`i`. -/
def matchAt (content kw : List Char) (i : Nat) : Bool :=
  decide (List.take kw.length (List.drop i content) = kw)

/-- Semantics of `re.search` for the pattern built by the code: a
word-boundary marker, the escaped literal keyword, and a word-boundary
marker.  True when the keyword occurs at some position with a regex word
boundary on each side. -/
def reSearchWord (content kw : List Char) : Bool :=
  (List.range (content.length + 1)).any fun i =>
    isBoundary content i && (matchAt content kw i && isBoundary content (i + kw.length))

/-- `str.lower` on the ASCII fragment. -/
def lowerStr (s : List Char) : List Char := s.map Char.toLower

/-- `search_keywords_in_file` match test for one keyword
(threading_search.py lines 46-52, multiprocessing_search.py lines 29-35):
the content is lowercased, the keyword is lowercased and escaped, and the
word-boundary pattern is searched. -/
def searchKeyword (content kw : List Char) : Bool :=
  reSearchWord (lowerStr content) (lowerStr kw)

/-- Modelled from the spec words: the keyword occurs in the content as a
whole word bounded by non-word characters or string edges.  An occurrence
at `i` qualifies when the character before it (if any) and the character
after it (if any) are not word characters. -/
def occursWholeWord (content kw : List Char) : Bool :=
  (List.range (content.length + 1)).any fun i =>
    matchAt content kw i &&
      ((i == 0 || !charAtIsWord content (i - 1)) && !charAtIsWord content (i + kw.length))

/-- Modelled from the spec words: case-insensitive whole-word occurrence,
obtained by lowercasing both content and keyword first. -/
def occursWholeWordCI (content kw : List Char) : Bool :=
  occursWholeWord (lowerStr content) (lowerStr kw)

/-- Loop body of `split_files_into_chunks` (threading_search.py lines
116-128, multiprocessing_search.py lines 135-147): for each worker index,
compute the end of its slice, emit the slice of the file list (or an empty
chunk when the start has passed the end of the list), and continue from the
new start. -/
def splitLoop (fl : List α) (chunkSize rem : Nat) : List Nat → Nat → List (List α)
  | [], _ => []
  | i :: is, start =>
    let e := start + chunkSize + (if i < rem then 1 else 0)
    (if start < fl.length then (fl.drop start).take (e - start) else []) ::
      splitLoop fl chunkSize rem is e

/-- `split_files_into_chunks` (threading_search.py lines 103-130,
multiprocessing_search.py lines 122-149): chunk size is the floor quotient
of the list length by the worker count, the remainder is spread over the
first chunks, and the loop runs once per worker index. -/
def split_files_into_chunks (numWorkers : Nat) (fl : List α) : List (List α) :=
  splitLoop fl (fl.length / numWorkers) (fl.length % numWorkers) (List.range numWorkers) 0

/-- A Python dictionary from keyword to list of file paths, modelled as an
association list with unique keys in insertion order. -/
abbrev Dict := List (String × List String)

/-- First value bound to key `k`, or the empty list when the key is absent
(the read-as-set view used when consuming results, mirroring
`results.get(keyword, [])`). -/
def lookupD (d : Dict) (k : String) : List String :=
  (d.lookup k).getD []

/-- The keys of a dictionary, in insertion order. -/
def dictKeys (d : Dict) : List String := d.map Prod.fst

/-- `defaultdict(list)` extend: `d[k].extend(ps)`.  If the key is present
its list is extended in place, otherwise the key is created at the end. -/
def dictExtend : Dict → String → List String → Dict
  | [], k, ps => [(k, ps)]
  | (k', v) :: d, k, ps =>
    if k' == k then (k', v ++ ps) :: d else (k', v) :: dictExtend d k ps

/-- `defaultdict(list)` append: `d[k].append(p)`. -/
def dictAppend1 (d : Dict) (k : String) (p : String) : Dict :=
  dictExtend d k [p]

/-- The directory as enumerated by `glob`, in enumeration order: each entry
is a file path together with its content, `none` when opening or reading
the file fails. -/
abbrev FS := List (String × Option (List Char))

/-- The ordered file list handed to the Partitioner. -/
def fsPaths (fs : FS) : List String := fs.map Prod.fst

/-- `open(filepath).read()`: the content when the file is readable. -/
def readFile (fs : FS) (p : String) : Option (List Char) :=
  match fs.lookup p with
  | some (some c) => some c
  | _ => none

/-- The keyword list as iterated by `found_keywords.items()`: a Python dict
keyed by the keywords keeps one entry per distinct keyword at its first
position. -/
def dedupFirst : List String → List String
  | [] => []
  | k :: ks => k :: (dedupFirst ks).filter (fun x => x != k)

/-- The boolean stored in `found_keywords` for one file and one keyword:
`false` whenever the file is unreadable (the except branch returns an
all-false dictionary), otherwise the word-boundary search result. -/
def fileMatches (fs : FS) (p : String) (kw : String) : Bool :=
  match readFile fs p with
  | some content => searchKeyword content kw.data
  | none => false

/-- Per-file body of the worker loop (threading_search.py lines 75-84,
multiprocessing_search.py lines 62-71): for each entry of the
found-keywords dictionary, append the file path to the local results when
the keyword was found. -/
def recordFile (fs : FS) (kws : List String) (d : Dict) (p : String) : Dict :=
  kws.foldl (fun d kw => if fileMatches fs p kw then dictAppend1 d kw p else d) d

/-- The local results dictionary a worker has accumulated after scanning
its whole chunk. -/
def workerResults (fs : FS) (keywords : List String) (chunk : List String) : Dict :=
  chunk.foldl (recordFile fs (dedupFirst keywords)) []

/-- What one worker hands to the aggregation step: its local results
dictionary, its processed-file count, its error count and the
critical-error marker of the multiprocessing except branch. -/
structure WorkerReport where
  results : Dict
  files_processed : Nat
  errors : Nat
  critical : Bool
deriving DecidableEq

/-- Report of one threading worker (threading_search.py lines 63-99): every
file of the chunk increments `files_processed`, and each unreadable file
bumps the shared error counter by one from inside
`search_keywords_in_file`; the total contributed is the number of
unreadable files of the chunk. -/
def workerThreadReport (fs : FS) (keywords : List String) (chunk : List String) :
    WorkerReport :=
  { results := workerResults fs keywords chunk
    files_processed := chunk.length
    errors := (chunk.filter (fun p => (readFile fs p).isNone)).length
    critical := false }

/-- Report of one multiprocessing worker (multiprocessing_search.py lines
44-90): identical results and processed count, but its local `error_count`
stays 0 on unreadable files because `search_keywords_in_file` swallows the
exception before the counting except branch can see it. -/
def workerProcessReport (fs : FS) (keywords : List String) (chunk : List String) :
    WorkerReport :=
  { results := workerResults fs keywords chunk
    files_processed := chunk.length
    errors := 0
    critical := false }

/-- The final state the driver reports: merged results dictionary, total
processed files, total errors, and the number of workers that were spawned
(one per non-empty chunk). -/
structure ScanOutcome where
  results : Dict
  processed : Nat
  errors : Nat
  spawned : Nat
deriving DecidableEq

/-- Merging one results dictionary into the global one (threading_search.py
lines 96-98, multiprocessing_search.py lines 227-228): extend the global
list of every keyword of the per-worker dictionary. -/
def mergeDict (d : Dict) (r : Dict) : Dict :=
  r.foldl (fun acc e => dictExtend acc e.1 e.2) d

/-- Collect the reports in the order they are received: merge every results
dictionary and sum the counters. -/
def runMerge (reports : List WorkerReport) : ScanOutcome :=
  { results := reports.foldl (fun d pr => mergeDict d pr.results) []
    processed := (reports.map (fun pr => pr.files_processed)).sum
    errors := (reports.map (fun pr => pr.errors)).sum
    spawned := reports.length }

/-- The chunks for which a worker is actually created: exactly the
non-empty ones (threading_search.py line 183, multiprocessing_search.py
line 204). -/
def spawnChunks (numWorkers : Nat) (paths : List String) : List (List String) :=
  (split_files_into_chunks numWorkers paths).filter (fun c => !c.isEmpty)

/-- The reports of the spawned threading workers, in chunk order. -/
def threadingReports (fs : FS) (keywords : List String) (numWorkers : Nat) :
    List WorkerReport :=
  (spawnChunks numWorkers (fsPaths fs)).map (workerThreadReport fs keywords)

/-- The reports of the spawned multiprocessing workers, in chunk order. -/
def mpReports (fs : FS) (keywords : List String) (numWorkers : Nat) :
    List WorkerReport :=
  (spawnChunks numWorkers (fsPaths fs)).map (workerProcessReport fs keywords)

/-- The fatal errors `search_files` can stop with: the missing-directory
error raised at entry, and the division-by-zero the threading version hits
inside `split_files_into_chunks` when the worker count is 0. -/
inductive DriverError
  | dirNotFound
  | zeroWorkers
deriving DecidableEq

/-- `ThreadingFileSearcher.search_files` (threading_search.py lines
132-213).  The directory argument is `none` when the directory does not
exist.  An empty enumeration returns an empty mapping before any splitting;
a worker count of 0 raises ZeroDivisionError inside the split; a negative
worker count makes `range` empty, so no chunk and no worker is created.
The worker count is an integer because the constructor accepts any
`num_threads`. -/
def threading_search_files : Option FS → List String → Int → Except DriverError ScanOutcome
  | none, _, _ => .error .dirNotFound
  | some fs, keywords, numThreads =>
    if (fsPaths fs).isEmpty then .ok ⟨[], 0, 0, 0⟩
    else if numThreads = 0 then .error .zeroWorkers
    else .ok (runMerge (threadingReports fs keywords numThreads.toNat))

/-- `max(1, num_processes)` from `MultiprocessingFileSearcher.__init__`
(multiprocessing_search.py line 116). -/
def mpClamp (numProcesses : Int) : Nat := (max 1 numProcesses).toNat

/-- `MultiprocessingFileSearcher.search_files` (multiprocessing_search.py
lines 151-269) for an explicitly configured worker count: the count is
clamped to at least 1 at construction, so only the missing directory is
fatal. -/
def mp_search_files : Option FS → List String → Int → Except DriverError ScanOutcome
  | none, _, _ => .error .dirNotFound
  | some fs, keywords, numProcesses =>
    if (fsPaths fs).isEmpty then .ok ⟨[], 0, 0, 0⟩
    else .ok (runMerge (mpReports fs keywords (mpClamp numProcesses)))

/-- Worker-boundary behaviour of `worker_process` (multiprocessing_search.py
lines 55-101) under an injected worker-level fault: the outer except branch
enqueues a report with empty results, zero processed files, error count 1
and the critical-error marker. -/
def workerProcessRun (fault : Bool) (fs : FS) (keywords : List String)
    (chunk : List String) : WorkerReport :=
  if fault then { results := [], files_processed := 0, errors := 1, critical := true }
  else workerProcessReport fs keywords chunk

/-- Worker-boundary behaviour of `worker_thread` (threading_search.py lines
63-101) under an injected worker-level fault: the function body has no
outer exception handler, so the fault propagates, the thread terminates
before the merge step, and the driver receives no report from it. -/
def workerThreadRun (fault : Bool) (fs : FS) (keywords : List String)
    (chunk : List String) : Option WorkerReport :=
  if fault then none else some (workerThreadReport fs keywords chunk)

/-- The concrete directory of the spec scenario: a.txt and b.txt readable,
c.txt unreadable. -/
def fsScenario : FS :=
  [("a.txt", some "python programming".data),
   ("b.txt", some "data structure".data),
   ("c.txt", none)]

/-- The keyword list of the spec scenario. -/
def kwsScenario : List String := ["python", "data", "missing"]

/-- A small fault-free directory used as a concrete witness input. -/
def fsOk : FS :=
  [("a.txt", some "python programming".data),
   ("b.txt", some "data structure".data)]

theorem charOfNat_toNat {n : Nat} (h : n.isValidChar) : (Char.ofNat n).toNat = n := by
  simp [Char.ofNat, h, Char.toNat, Char.ofNatAux, UInt32.toNat]

theorem isWordChar_toLower (c : Char) : isWordChar c.toLower = isWordChar c := by
  unfold Char.toLower
  by_cases h : 65 ≤ c.toNat ∧ c.toNat ≤ 90
  · simp only [h, and_self, if_true]
    have hvalid : (c.toNat + 32).isValidChar := by left; omega
    have hv : (Char.ofNat (c.toNat + 32)).toNat = c.toNat + 32 := charOfNat_toNat hvalid
    have e97 : (97 : UInt32).toNat = 97 := rfl
    have e122 : (122 : UInt32).toNat = 122 := rfl
    have ha : isWordChar (Char.ofNat (c.toNat + 32)) = true := by
      unfold isWordChar Char.isAlphanum Char.isAlpha Char.isLower Char.isUpper Char.isDigit
      have h97 : ((97 : UInt32) ≤ (Char.ofNat (c.toNat + 32)).val) := by
        show (97 : UInt32).toNat ≤ (Char.ofNat (c.toNat + 32)).val.toNat
        show (97 : UInt32).toNat ≤ (Char.ofNat (c.toNat + 32)).toNat
        rw [hv, e97]; omega
      have h122 : ((Char.ofNat (c.toNat + 32)).val ≤ (122 : UInt32)) := by
        show (Char.ofNat (c.toNat + 32)).val.toNat ≤ (122 : UInt32).toNat
        show (Char.ofNat (c.toNat + 32)).toNat ≤ (122 : UInt32).toNat
        rw [hv, e122]; omega
      simp [h97, h122]
    have hb : isWordChar c = true := by
      unfold isWordChar Char.isAlphanum Char.isAlpha Char.isLower Char.isUpper Char.isDigit
      have h65 : ((65 : UInt32) ≤ c.val) := h.1
      have h90 : (c.val ≤ (90 : UInt32)) := h.2
      simp [h65, h90]
    rw [ha, hb]
  · simp [h]

theorem matchAt_get {content kw : List Char} {i j : Nat} (hj : j < kw.length)
    (h : matchAt content kw i = true) : content[i + j]? = kw[j]? := by
  have heq : List.take kw.length (List.drop i content) = kw := of_decide_eq_true h
  calc content[i + j]? = (content.drop i)[j]? := (List.getElem?_drop content i j).symm
    _ = ((content.drop i).take kw.length)[j]? := (List.getElem?_take_of_lt hj).symm
    _ = kw[j]? := by rw [heq]

theorem matchAt_elem {content kw : List Char} {i j : Nat} (hj : j < kw.length)
    (h : matchAt content kw i = true) :
    ∃ c, content[i + j]? = some c ∧ c ∈ kw := by
  have h1 : content[i + j]? = kw[j]? := matchAt_get hj h
  refine ⟨kw[j], ?_, List.getElem_mem hj⟩
  rw [h1]; exact List.getElem?_eq_getElem hj

theorem wordPred_eq (content kw : List Char) (h1 : kw ≠ [])
    (h2 : ∀ c ∈ kw, isWordChar c = true) (i : Nat) :
    (isBoundary content i && (matchAt content kw i && isBoundary content (i + kw.length)))
    = (matchAt content kw i &&
        ((i == 0 || !charAtIsWord content (i - 1)) && !charAtIsWord content (i + kw.length))) := by
  cases hm : matchAt content kw i with
  | false => simp
  | true =>
    have hlen : 0 < kw.length := List.length_pos.mpr h1
    obtain ⟨c0, hc0, hc0m⟩ := matchAt_elem (j := 0) hlen hm
    have hw0 : charAtIsWord content i = true := by
      unfold charAtIsWord
      rw [show i = i + 0 by omega, hc0]
      exact h2 c0 hc0m
    obtain ⟨c1, hc1, hc1m⟩ := matchAt_elem (j := kw.length - 1) (by omega) hm
    have hw1 : charAtIsWord content (i + kw.length - 1) = true := by
      unfold charAtIsWord
      rw [show i + kw.length - 1 = i + (kw.length - 1) by omega, hc1]
      exact h2 c1 hc1m
    have hb0 : isBoundary content i = (i == 0 || !charAtIsWord content (i - 1)) := by
      unfold isBoundary
      rw [hw0]
      cases h01 : (i == 0) <;> cases h02 : charAtIsWord content (i - 1) <;>
        simp [bne, h01, h02]
    have hb1 : isBoundary content (i + kw.length) = !charAtIsWord content (i + kw.length) := by
      unfold isBoundary
      rw [show ((i + kw.length : Nat) != 0) = true from bne_iff_ne.mpr (by omega), hw1]
      cases hcw : charAtIsWord content (i + kw.length) <;> simp [bne, hcw]
    rw [hb0, hb1]
    cases h01 : (i == 0 || !charAtIsWord content (i - 1)) <;>
      cases hcw : !charAtIsWord content (i + kw.length) <;> simp

theorem reSearchWord_eq_occurs (content kw : List Char) (h1 : kw ≠ [])
    (h2 : ∀ c ∈ kw, isWordChar c = true) :
    reSearchWord content kw = occursWholeWord content kw := by
  unfold reSearchWord occursWholeWord
  congr 1
  funext i
  exact wordPred_eq content kw h1 h2 i

theorem searchKeyword_eq_occursCI (content kw : List Char) (h1 : kw ≠ [])
    (h2 : ∀ c ∈ kw, isWordChar c = true) :
    searchKeyword content kw = occursWholeWordCI content kw := by
  unfold searchKeyword occursWholeWordCI
  apply reSearchWord_eq_occurs
  · simpa [lowerStr] using h1
  · intro c hc
    obtain ⟨c', hc', rfl⟩ := List.mem_map.mp hc
    rw [isWordChar_toLower]; exact h2 c' hc'

theorem splitLoop_spec (fl : List α) (W cs rem : Nat)
    (hN : W * cs + rem = fl.length) (hrW : rem < W) :
    ∀ k i, i + k = W →
      ((splitLoop fl cs rem (List.range' i k) (i * cs + min i rem)).map List.length
        = (List.range' i k).map (fun j => cs + if j < rem then 1 else 0)
      ∧ (splitLoop fl cs rem (List.range' i k) (i * cs + min i rem)).flatten
        = fl.drop (i * cs + min i rem)) := by
  have hstart_le : ∀ i, i ≤ W → i * cs + min i rem ≤ fl.length := by
    intro i hi
    calc i * cs + min i rem ≤ W * cs + rem :=
          Nat.add_le_add (Nat.mul_le_mul_right cs hi) (min_le_right i rem)
      _ = fl.length := hN
  intro k
  induction k with
  | zero =>
    intro i hi
    have hiW : i = W := by omega
    have hlen : i * cs + min i rem = fl.length := by
      subst hiW
      rw [min_eq_right (le_of_lt hrW)]
      exact hN
    constructor
    · simp [List.range', splitLoop]
    · simp [List.range', splitLoop, hlen, List.drop_length]
  | succ k ih =>
    intro i hi
    have hiW : i ≤ W := by omega
    have hi1W : i + 1 ≤ W := by omega
    have hmul : (i + 1) * cs = i * cs + cs := Nat.succ_mul i cs
    have he : i * cs + min i rem + cs + (if i < rem then 1 else 0)
        = (i + 1) * cs + min (i + 1) rem := by
      rw [hmul]
      rcases Nat.lt_or_ge i rem with h | h
      · rw [if_pos h, min_eq_left (Nat.le_of_lt h), min_eq_left (Nat.succ_le_of_lt h)]
        omega
      · rw [if_neg (Nat.not_lt.mpr h), min_eq_right h, min_eq_right (by omega)]
        omega
    have hs_le : i * cs + min i rem ≤ fl.length := hstart_le i hiW
    have he_le : (i + 1) * cs + min (i + 1) rem ≤ fl.length := hstart_le (i + 1) hi1W
    obtain ⟨ihm, ihj⟩ := ih (i + 1) (by omega)
    rw [List.range'_succ]
    simp only [splitLoop, List.map_cons, List.flatten_cons]
    rw [he, ihm, ihj]
    constructor
    · congr 1
      by_cases hlt : i * cs + min i rem < fl.length
      · rw [if_pos hlt, List.length_take, List.length_drop]
        omega
      · rw [if_neg hlt, List.length_nil]
        omega
    · by_cases hlt : i * cs + min i rem < fl.length
      · rw [if_pos hlt]
        have h1 : fl.drop ((i + 1) * cs + min (i + 1) rem)
            = (fl.drop (i * cs + min i rem)).drop
              ((i + 1) * cs + min (i + 1) rem - (i * cs + min i rem)) := by
          rw [List.drop_drop]
          congr 1
          omega
        rw [h1, List.take_append_drop]
      · rw [if_neg hlt, List.nil_append]
        have h2 : fl.length ≤ i * cs + min i rem := Nat.not_lt.mp hlt
        rw [List.drop_eq_nil_of_le (by omega), List.drop_eq_nil_of_le (by omega)]

theorem split_map_length (fl : List α) (W : Nat) (hW : 0 < W) :
    (split_files_into_chunks W fl).map List.length
      = (List.range W).map
          (fun j => if j < fl.length % W then fl.length / W + 1 else fl.length / W) := by
  unfold split_files_into_chunks
  have h := (splitLoop_spec fl W (fl.length / W) (fl.length % W)
    (Nat.div_add_mod fl.length W) (Nat.mod_lt fl.length hW) W 0 (by omega)).1
  have h0 : 0 * (fl.length / W) + min 0 (fl.length % W) = 0 := by simp
  rw [h0] at h
  rw [List.range_eq_range' W, h]
  apply List.map_congr_left
  intro j _
  by_cases hj : j < fl.length % W <;> simp [hj]

theorem split_flatten (fl : List α) (W : Nat) (hW : 0 < W) :
    (split_files_into_chunks W fl).flatten = fl := by
  unfold split_files_into_chunks
  have h := (splitLoop_spec fl W (fl.length / W) (fl.length % W)
    (Nat.div_add_mod fl.length W) (Nat.mod_lt fl.length hW) W 0 (by omega)).2
  have h0 : 0 * (fl.length / W) + min 0 (fl.length % W) = 0 := by simp
  rw [h0] at h
  rw [List.range_eq_range' W, h, List.drop_zero]

theorem split_length (fl : List α) (W : Nat) (hW : 0 < W) :
    (split_files_into_chunks W fl).length = W := by
  have h2 := congrArg List.length (split_map_length fl W hW)
  simpa using h2

theorem spawnChunks_flatten (W : Nat) (paths : List String) (hW : 0 < W) :
    (spawnChunks W paths).flatten = paths := by
  unfold spawnChunks
  rw [List.flatten_filter_not_isEmpty, split_flatten paths W hW]

theorem spawnChunks_nodup_disjoint (W : Nat) (paths : List String) (hW : 0 < W)
    (hnd : paths.Nodup) :
    (∀ c ∈ spawnChunks W paths, c.Nodup) ∧ (spawnChunks W paths).Pairwise List.Disjoint := by
  have hj : (split_files_into_chunks W paths).flatten = paths := split_flatten paths W hW
  have hN : (split_files_into_chunks W paths).flatten.Nodup := by rw [hj]; exact hnd
  obtain ⟨h1, h2⟩ := List.nodup_flatten.mp hN
  exact ⟨fun c hc => h1 c (List.mem_of_mem_filter hc), h2.sublist (List.filter_sublist _)⟩
theorem lookup_dictExtend_self (d : Dict) (k : String) (ps : List String) :
    (dictExtend d k ps).lookup k = some (lookupD d k ++ ps) := by
  induction d with
  | nil => simp [dictExtend, lookupD, List.lookup]
  | cons e d ih =>
    obtain ⟨k', v⟩ := e
    by_cases h : k' = k
    · subst h
      simp [dictExtend, lookupD, List.lookup]
    · have hb : (k' == k) = false := beq_eq_false_iff_ne.mpr h
      have hb' : (k == k') = false := beq_eq_false_iff_ne.mpr (Ne.symm h)
      simp [dictExtend, hb, hb', List.lookup, ih, lookupD]

theorem lookup_dictExtend_ne (d : Dict) (k k' : String) (ps : List String) (h : k' ≠ k) :
    (dictExtend d k ps).lookup k' = d.lookup k' := by
  have hb : (k' == k) = false := beq_eq_false_iff_ne.mpr h
  induction d with
  | nil => simp [dictExtend, List.lookup, hb]
  | cons e d ih =>
    obtain ⟨k0, v⟩ := e
    by_cases h0 : k0 = k
    · subst h0
      have hb2 : (k' == k0) = false := hb
      simp [dictExtend, List.lookup, hb2]
    · have hb0 : (k0 == k) = false := beq_eq_false_iff_ne.mpr h0
      simp only [dictExtend, hb0, Bool.false_eq_true, if_false, List.lookup]
      cases hbk : (k' == k0) <;> simp [ih]

theorem lookupD_dictExtend_self (d : Dict) (k : String) (ps : List String) :
    lookupD (dictExtend d k ps) k = lookupD d k ++ ps := by
  unfold lookupD
  rw [lookup_dictExtend_self]
  rfl

theorem lookupD_dictExtend_ne (d : Dict) (k k' : String) (ps : List String) (h : k' ≠ k) :
    lookupD (dictExtend d k ps) k' = lookupD d k' := by
  unfold lookupD
  rw [lookup_dictExtend_ne d k k' ps h]

theorem mem_keys_dictExtend (d : Dict) (k : String) (ps : List String) (k' : String) :
    k' ∈ dictKeys (dictExtend d k ps) ↔ k' ∈ dictKeys d ∨ k' = k := by
  induction d with
  | nil => simp [dictExtend, dictKeys]
  | cons e d ih =>
    obtain ⟨k0, v⟩ := e
    by_cases h0 : k0 = k
    · subst h0
      simp only [dictExtend, beq_self_eq_true, if_true, dictKeys, List.map_cons, List.mem_cons]
      tauto
    · have hb0 : (k0 == k) = false := beq_eq_false_iff_ne.mpr h0
      simp only [dictExtend, hb0, Bool.false_eq_true, if_false, dictKeys, List.map_cons,
        List.mem_cons]
      have ih' : k' ∈ dictKeys (dictExtend d k ps) ↔ k' ∈ dictKeys d ∨ k' = k := ih
      simp only [dictKeys] at ih'
      rw [ih']
      tauto

theorem keys_nodup_dictExtend (d : Dict) (k : String) (ps : List String)
    (h : (dictKeys d).Nodup) : (dictKeys (dictExtend d k ps)).Nodup := by
  induction d with
  | nil => simp [dictExtend, dictKeys]
  | cons e d ih =>
    obtain ⟨k0, v⟩ := e
    simp only [dictKeys, List.map_cons, List.nodup_cons] at h
    by_cases h0 : k0 = k
    · subst h0
      simp only [dictExtend, beq_self_eq_true, if_true, dictKeys, List.map_cons, List.nodup_cons]
      exact h
    · have hb0 : (k0 == k) = false := beq_eq_false_iff_ne.mpr h0
      simp only [dictExtend, hb0, Bool.false_eq_true, if_false, dictKeys, List.map_cons,
        List.nodup_cons]
      refine ⟨?_, ih h.2⟩
      intro hmem
      rcases (mem_keys_dictExtend d k ps k0).mp hmem with hm | hm
      · exact h.1 hm
      · exact h0 hm

theorem lookup_eq_none_of_not_mem_keys (d : Dict) (k : String) (h : k ∉ dictKeys d) :
    d.lookup k = none := by
  induction d with
  | nil => simp [List.lookup]
  | cons e d ih =>
    obtain ⟨k0, v⟩ := e
    simp only [dictKeys, List.map_cons, List.mem_cons] at h
    push_neg at h
    have hb : (k == k0) = false := beq_eq_false_iff_ne.mpr h.1
    simp only [List.lookup, hb]
    exact ih h.2

theorem lookup_isSome_iff_mem_keys (d : Dict) (k : String) :
    (d.lookup k).isSome = true ↔ k ∈ dictKeys d := by
  induction d with
  | nil => simp [List.lookup, dictKeys]
  | cons e d ih =>
    obtain ⟨k0, v⟩ := e
    simp only [dictKeys, List.map_cons, List.mem_cons]
    by_cases h0 : k = k0
    · subst h0
      simp [List.lookup]
    · have hb : (k == k0) = false := beq_eq_false_iff_ne.mpr h0
      simp only [List.lookup, hb]
      rw [ih]
      simp only [dictKeys]
      tauto

theorem lookupD_mergeDict (d r : Dict) (k : String) (hr : (dictKeys r).Nodup) :
    lookupD (mergeDict d r) k = lookupD d k ++ lookupD r k := by
  induction r generalizing d with
  | nil => simp [mergeDict, lookupD, List.lookup]
  | cons e r ih =>
    obtain ⟨k0, v0⟩ := e
    simp only [dictKeys, List.map_cons, List.nodup_cons] at hr
    have hstep : mergeDict d ((k0, v0) :: r) = mergeDict (dictExtend d k0 v0) r := rfl
    rw [hstep, ih (dictExtend d k0 v0) hr.2]
    by_cases h : k = k0
    · subst h
      rw [lookupD_dictExtend_self]
      have hnone : lookupD r k = [] := by
        unfold lookupD
        rw [lookup_eq_none_of_not_mem_keys r k hr.1]
        rfl
      rw [hnone]
      simp [lookupD, List.lookup]
    · rw [lookupD_dictExtend_ne d k0 k v0 h]
      have hb : (k == k0) = false := beq_eq_false_iff_ne.mpr h
      simp [lookupD, List.lookup, hb, List.append_assoc]

theorem mem_keys_mergeDict (d r : Dict) (k : String) :
    k ∈ dictKeys (mergeDict d r) ↔ k ∈ dictKeys d ∨ k ∈ dictKeys r := by
  induction r generalizing d with
  | nil => simp [mergeDict, dictKeys]
  | cons e r ih =>
    obtain ⟨k0, v0⟩ := e
    have hstep : mergeDict d ((k0, v0) :: r) = mergeDict (dictExtend d k0 v0) r := rfl
    rw [hstep, ih (dictExtend d k0 v0)]
    rw [mem_keys_dictExtend]
    simp only [dictKeys, List.map_cons, List.mem_cons]
    tauto

theorem lookupD_foldl_merge (prs : List WorkerReport) (d : Dict) (k : String)
    (h : ∀ pr ∈ prs, (dictKeys pr.results).Nodup) :
    lookupD (prs.foldl (fun d pr => mergeDict d pr.results) d) k
      = lookupD d k ++ (prs.map (fun pr => lookupD pr.results k)).flatten := by
  induction prs generalizing d with
  | nil => simp
  | cons pr prs ih =>
    simp only [List.foldl_cons, List.map_cons, List.flatten_cons]
    rw [ih (mergeDict d pr.results) (fun q hq => h q (List.mem_cons_of_mem pr hq))]
    rw [lookupD_mergeDict d pr.results k (h pr (List.mem_cons_self pr prs))]
    rw [List.append_assoc]

theorem mem_keys_foldl_merge (prs : List WorkerReport) (d : Dict) (k : String) :
    k ∈ dictKeys (prs.foldl (fun d pr => mergeDict d pr.results) d)
      ↔ k ∈ dictKeys d ∨ ∃ pr ∈ prs, k ∈ dictKeys pr.results := by
  induction prs generalizing d with
  | nil => simp
  | cons pr prs ih =>
    simp only [List.foldl_cons, List.mem_cons]
    rw [ih (mergeDict d pr.results), mem_keys_mergeDict]
    constructor
    · intro h
      rcases h with (h | h) | ⟨q, hq, hk⟩
      · exact Or.inl h
      · exact Or.inr ⟨pr, Or.inl rfl, h⟩
      · exact Or.inr ⟨q, Or.inr hq, hk⟩
    · intro h
      rcases h with h | ⟨q, hq | hq, hk⟩
      · exact Or.inl (Or.inl h)
      · subst hq; exact Or.inl (Or.inr hk)
      · exact Or.inr ⟨q, hq, hk⟩

theorem mem_dedupFirst (a : String) (l : List String) : a ∈ dedupFirst l ↔ a ∈ l := by
  induction l with
  | nil => simp [dedupFirst]
  | cons k ks ih =>
    simp only [dedupFirst, List.mem_cons, List.mem_filter, bne_iff_ne, ne_eq,
      decide_eq_true_eq]
    by_cases h : a = k
    · simp [h]
    · simp [h, ih]

theorem nodup_dedupFirst (l : List String) : (dedupFirst l).Nodup := by
  induction l with
  | nil => simp [dedupFirst]
  | cons k ks ih =>
    simp only [dedupFirst, List.nodup_cons]
    constructor
    · intro hmem
      have := (List.mem_filter.mp hmem).2
      simp at this
    · exact ih.filter _

theorem lookup_recordFile (fs : FS) (p : String) (kws : List String) (d : Dict) (k : String)
    (hnd : kws.Nodup) :
    (recordFile fs kws d p).lookup k
      = if k ∈ kws ∧ fileMatches fs p k = true then some (lookupD d k ++ [p]) else d.lookup k := by
  induction kws generalizing d with
  | nil => simp [recordFile]
  | cons k0 ks ih =>
    obtain ⟨hk0, hnd'⟩ := List.nodup_cons.mp hnd
    show (List.foldl (fun d kw => if fileMatches fs p kw then dictAppend1 d kw p else d)
      (if fileMatches fs p k0 then dictAppend1 d k0 p else d) ks).lookup k = _
    have hrec : ∀ d', (List.foldl (fun d kw => if fileMatches fs p kw then dictAppend1 d kw p else d)
        d' ks) = recordFile fs ks d' p := fun d' => rfl
    rw [hrec]
    by_cases hk : k = k0
    · subst hk
      rw [ih _ hnd']
      have hnotin : ¬(k ∈ ks ∧ fileMatches fs p k = true) := fun hc => hk0 hc.1
      rw [if_neg hnotin]
      cases hm : fileMatches fs p k with
      | true =>
        rw [if_pos rfl]
        have : (k ∈ k :: ks ∧ true = true) := ⟨List.mem_cons_self k ks, rfl⟩
        rw [if_pos (by exact ⟨List.mem_cons_self k ks, rfl⟩)]
        unfold dictAppend1
        exact lookup_dictExtend_self d k [p]
      | false =>
        rw [if_neg (by simp)]
        rw [if_neg (by simp [hm])]
    · rw [ih _ hnd']
      have hd' : (if fileMatches fs p k0 then dictAppend1 d k0 p else d).lookup k
          = d.lookup k := by
        cases hm : fileMatches fs p k0 with
        | true =>
          rw [if_pos rfl]
          exact lookup_dictExtend_ne d k0 k [p] hk
        | false => rw [if_neg (by simp)]
      have hdD : lookupD (if fileMatches fs p k0 then dictAppend1 d k0 p else d) k
          = lookupD d k := by
        unfold lookupD
        rw [hd']
      rw [hd', hdD]
      by_cases hks : k ∈ ks ∧ fileMatches fs p k = true
      · rw [if_pos hks, if_pos ⟨List.mem_cons_of_mem k0 hks.1, hks.2⟩]
      · rw [if_neg hks, if_neg (by
          intro hc
          exact hks ⟨(List.mem_cons.mp hc.1).resolve_left hk, hc.2⟩)]

theorem lookup_chunkFold (fs : FS) (kws : List String) (hnd : kws.Nodup) (k : String)
    (hk : k ∈ kws) :
    ∀ (chunk : List String) (d : Dict),
    (chunk.foldl (recordFile fs kws) d).lookup k
      = match d.lookup k with
        | some v => some (v ++ chunk.filter (fun p => fileMatches fs p k))
        | none =>
          if (chunk.filter (fun p => fileMatches fs p k)).isEmpty then none
          else some (chunk.filter (fun p => fileMatches fs p k)) := by
  intro chunk
  induction chunk with
  | nil =>
    intro d
    cases hd : d.lookup k <;> simp [hd]
  | cons p c ih =>
    intro d
    simp only [List.foldl_cons]
    rw [ih (recordFile fs kws d p)]
    rw [lookup_recordFile fs p kws d k hnd]
    cases hm : fileMatches fs p k with
    | true =>
      rw [if_pos ⟨hk, rfl⟩]
      have hfilt : (p :: c).filter (fun q => fileMatches fs q k)
          = p :: c.filter (fun q => fileMatches fs q k) := by
        simp [List.filter_cons, hm]
      rw [hfilt]
      cases hd : d.lookup k with
      | some v => simp [lookupD, hd]
      | none => simp [lookupD, hd]
    | false =>
      rw [if_neg (by simp [hm])]
      have hfilt : (p :: c).filter (fun q => fileMatches fs q k)
          = c.filter (fun q => fileMatches fs q k) := by
        simp [List.filter_cons, hm]
      rw [hfilt]

theorem lookup_chunkFold_not_mem (fs : FS) (kws : List String) (hnd : kws.Nodup) (k : String)
    (hk : k ∉ kws) :
    ∀ (chunk : List String) (d : Dict),
    (chunk.foldl (recordFile fs kws) d).lookup k = d.lookup k := by
  intro chunk
  induction chunk with
  | nil => intro d; rfl
  | cons p c ih =>
    intro d
    simp only [List.foldl_cons]
    rw [ih, lookup_recordFile fs p kws d k hnd, if_neg (fun hc => hk hc.1)]

theorem lookupD_workerResults (fs : FS) (keywords : List String) (chunk : List String)
    (k : String) :
    lookupD (workerResults fs keywords chunk) k
      = if k ∈ dedupFirst keywords then chunk.filter (fun p => fileMatches fs p k) else [] := by
  unfold workerResults
  by_cases hk : k ∈ dedupFirst keywords
  · rw [if_pos hk]
    unfold lookupD
    rw [lookup_chunkFold fs (dedupFirst keywords) (nodup_dedupFirst _) k hk chunk []]
    show (if (chunk.filter (fun p => fileMatches fs p k)).isEmpty then none
      else some (chunk.filter (fun p => fileMatches fs p k))).getD [] = _
    by_cases hf : (chunk.filter (fun p => fileMatches fs p k)).isEmpty
    · rw [if_pos hf]
      have : chunk.filter (fun p => fileMatches fs p k) = [] := List.isEmpty_iff.mp hf
      rw [this]
      rfl
    · rw [if_neg hf]
      rfl
  · rw [if_neg hk]
    unfold lookupD
    rw [lookup_chunkFold_not_mem fs (dedupFirst keywords) (nodup_dedupFirst _) k hk chunk []]
    rfl

theorem mem_keys_workerResults (fs : FS) (keywords : List String) (chunk : List String)
    (k : String) :
    k ∈ dictKeys (workerResults fs keywords chunk)
      ↔ k ∈ dedupFirst keywords ∧ chunk.filter (fun p => fileMatches fs p k) ≠ [] := by
  rw [← lookup_isSome_iff_mem_keys]
  unfold workerResults
  by_cases hk : k ∈ dedupFirst keywords
  · rw [lookup_chunkFold fs (dedupFirst keywords) (nodup_dedupFirst _) k hk chunk []]
    show (if (chunk.filter (fun p => fileMatches fs p k)).isEmpty then none
      else some (chunk.filter (fun p => fileMatches fs p k))).isSome = true ↔ _
    by_cases hf : (chunk.filter (fun p => fileMatches fs p k)).isEmpty
    · rw [if_pos hf]
      simp [hk, List.isEmpty_iff.mp hf]
    · rw [if_neg hf]
      simp only [Option.isSome_some, true_iff]
      exact ⟨hk, fun hc => hf (by rw [hc]; rfl)⟩
  · rw [lookup_chunkFold_not_mem fs (dedupFirst keywords) (nodup_dedupFirst _) k hk chunk []]
    simp [hk]

theorem foldl_keys_nodup {β : Type} (f : Dict → β → Dict)
    (hf : ∀ d x, (dictKeys d).Nodup → (dictKeys (f d x)).Nodup) :
    ∀ (l : List β) (d : Dict), (dictKeys d).Nodup → (dictKeys (l.foldl f d)).Nodup := by
  intro l
  induction l with
  | nil => intro d h; exact h
  | cons x xs ih =>
    intro d h
    exact ih (f d x) (hf d x h)

theorem keys_nodup_recordFile (fs : FS) (kws : List String) (p : String) (d : Dict)
    (h : (dictKeys d).Nodup) : (dictKeys (recordFile fs kws d p)).Nodup := by
  unfold recordFile
  refine foldl_keys_nodup _ ?_ kws d h
  intro d' kw h'
  by_cases hm : fileMatches fs p kw = true
  · rw [if_pos hm]
    exact keys_nodup_dictExtend d' kw [p] h'
  · rw [if_neg hm]
    exact h'

theorem keys_nodup_workerResults (fs : FS) (keywords : List String) (chunk : List String) :
    (dictKeys (workerResults fs keywords chunk)).Nodup := by
  unfold workerResults
  refine foldl_keys_nodup _ ?_ chunk [] (by simp [dictKeys])
  intro d p h
  exact keys_nodup_recordFile fs (dedupFirst keywords) p d h

theorem mem_lookupD_runMerge (prs : List WorkerReport) (k : String) (x : String)
    (h : ∀ pr ∈ prs, (dictKeys pr.results).Nodup) :
    x ∈ lookupD (runMerge prs).results k ↔ ∃ pr ∈ prs, x ∈ lookupD pr.results k := by
  show x ∈ lookupD (prs.foldl (fun d pr => mergeDict d pr.results) []) k ↔ _
  rw [lookupD_foldl_merge prs [] k h]
  show x ∈ [] ++ _ ↔ _
  rw [List.nil_append, List.mem_flatten]
  constructor
  · rintro ⟨l, hl, hx⟩
    obtain ⟨pr, hpr, rfl⟩ := List.mem_map.mp hl
    exact ⟨pr, hpr, hx⟩
  · rintro ⟨pr, hpr, hx⟩
    exact ⟨lookupD pr.results k, List.mem_map.mpr ⟨pr, hpr, rfl⟩, hx⟩

theorem mem_keys_runMerge (prs : List WorkerReport) (k : String) :
    k ∈ dictKeys (runMerge prs).results ↔ ∃ pr ∈ prs, k ∈ dictKeys pr.results := by
  show k ∈ dictKeys (prs.foldl (fun d pr => mergeDict d pr.results) []) ↔ _
  rw [mem_keys_foldl_merge]
  simp [dictKeys]

theorem lookupD_runMerge_flatten (σ : List WorkerReport) (k : String)
    (h : ∀ pr ∈ σ, (dictKeys pr.results).Nodup) :
    lookupD (runMerge σ).results k = (σ.map (fun pr => lookupD pr.results k)).flatten := by
  show lookupD (σ.foldl (fun d pr => mergeDict d pr.results) []) k = _
  rw [lookupD_foldl_merge σ [] k h]
  rfl

theorem mem_lookupD_perm_reports (reports σ : List WorkerReport) (hp : σ.Perm reports)
    (h : ∀ pr ∈ reports, (dictKeys pr.results).Nodup) (k x : String) :
    x ∈ lookupD (runMerge σ).results k ↔ ∃ pr ∈ reports, x ∈ lookupD pr.results k := by
  rw [mem_lookupD_runMerge σ k x (fun pr hpr => h pr (hp.mem_iff.mp hpr))]
  constructor
  · rintro ⟨pr, hpr, hx⟩
    exact ⟨pr, hp.mem_iff.mp hpr, hx⟩
  · rintro ⟨pr, hpr, hx⟩
    exact ⟨pr, hp.mem_iff.mpr hpr, hx⟩

theorem threadingReports_results (fs : FS) (kws : List String) (W : Nat) :
    (threadingReports fs kws W).map (fun pr => pr.results)
      = (spawnChunks W (fsPaths fs)).map (workerResults fs kws) := by
  unfold threadingReports
  rw [List.map_map]
  rfl

theorem mpReports_results (fs : FS) (kws : List String) (W : Nat) :
    (mpReports fs kws W).map (fun pr => pr.results)
      = (spawnChunks W (fsPaths fs)).map (workerResults fs kws) := by
  unfold mpReports
  rw [List.map_map]
  rfl

theorem keys_nodup_of_results_eq (reports : List WorkerReport) (fs : FS)
    (kws : List String) (W : Nat)
    (hres : reports.map (fun pr => pr.results)
      = (spawnChunks W (fsPaths fs)).map (workerResults fs kws)) :
    ∀ pr ∈ reports, (dictKeys pr.results).Nodup := by
  intro pr hpr
  have hmem : pr.results ∈ reports.map (fun pr => pr.results) :=
    List.mem_map.mpr ⟨pr, hpr, rfl⟩
  rw [hres] at hmem
  obtain ⟨c, _, hc⟩ := List.mem_map.mp hmem
  rw [← hc]
  exact keys_nodup_workerResults fs kws c

theorem exists_report_iff_chunk (reports : List WorkerReport) (fs : FS)
    (kws : List String) (W : Nat)
    (hres : reports.map (fun pr => pr.results)
      = (spawnChunks W (fsPaths fs)).map (workerResults fs kws))
    (P : Dict → Prop) :
    (∃ pr ∈ reports, P pr.results)
      ↔ ∃ c ∈ spawnChunks W (fsPaths fs), P (workerResults fs kws c) := by
  constructor
  · rintro ⟨pr, hpr, hP⟩
    have hmem : pr.results ∈ reports.map (fun pr => pr.results) :=
      List.mem_map.mpr ⟨pr, hpr, rfl⟩
    rw [hres] at hmem
    obtain ⟨c, hc, hceq⟩ := List.mem_map.mp hmem
    exact ⟨c, hc, hceq ▸ hP⟩
  · rintro ⟨c, hc, hP⟩
    have hmem : workerResults fs kws c ∈ reports.map (fun pr => pr.results) := by
      rw [hres]
      exact List.mem_map.mpr ⟨c, hc, rfl⟩
    obtain ⟨pr, hpr, hpeq⟩ := List.mem_map.mp hmem
    exact ⟨pr, hpr, hpeq ▸ hP⟩

theorem filter_ne_nil_iff (c : List String) (p : String → Bool) :
    c.filter p ≠ [] ↔ ∃ q ∈ c, p q = true := by
  rw [Ne, List.filter_eq_nil_iff]
  push_neg
  constructor
  · rintro ⟨q, hq, hp⟩
    exact ⟨q, hq, by simpa using hp⟩
  · rintro ⟨q, hq, hp⟩
    exact ⟨q, hq, by simpa using hp⟩

theorem scheduled_run_keys (fs : FS) (kws : List String) (W : Nat) (hW : 0 < W)
    (reports σ : List WorkerReport)
    (hres : reports.map (fun pr => pr.results)
      = (spawnChunks W (fsPaths fs)).map (workerResults fs kws))
    (hp : σ.Perm reports) (k : String) :
    k ∈ dictKeys (runMerge σ).results
      ↔ k ∈ kws ∧ ∃ q ∈ fsPaths fs, fileMatches fs q k = true := by
  rw [mem_keys_runMerge]
  have h1 : (∃ pr ∈ σ, k ∈ dictKeys pr.results) ↔ ∃ pr ∈ reports, k ∈ dictKeys pr.results := by
    constructor
    · rintro ⟨pr, hpr, hk⟩; exact ⟨pr, hp.mem_iff.mp hpr, hk⟩
    · rintro ⟨pr, hpr, hk⟩; exact ⟨pr, hp.mem_iff.mpr hpr, hk⟩
  rw [h1, exists_report_iff_chunk reports fs kws W hres (fun d => k ∈ dictKeys d)]
  have h2 : ∀ c, (k ∈ dictKeys (workerResults fs kws c)
      ↔ k ∈ dedupFirst kws ∧ c.filter (fun q => fileMatches fs q k) ≠ []) :=
    fun c => mem_keys_workerResults fs kws c k
  constructor
  · rintro ⟨c, hc, hk⟩
    obtain ⟨hkd, hf⟩ := (h2 c).mp hk
    obtain ⟨q, hq, hm⟩ := (filter_ne_nil_iff c _).mp hf
    refine ⟨(mem_dedupFirst k kws).mp hkd, q, ?_, hm⟩
    rw [← spawnChunks_flatten W (fsPaths fs) hW]
    exact List.mem_flatten.mpr ⟨c, hc, hq⟩
  · rintro ⟨hkw, q, hq, hm⟩
    rw [← spawnChunks_flatten W (fsPaths fs) hW] at hq
    obtain ⟨c, hc, hqc⟩ := List.mem_flatten.mp hq
    refine ⟨c, hc, (h2 c).mpr ⟨(mem_dedupFirst k kws).mpr hkw, ?_⟩⟩
    exact (filter_ne_nil_iff c _).mpr ⟨q, hqc, hm⟩

theorem scheduled_run_nodup (fs : FS) (kws : List String) (W : Nat) (hW : 0 < W)
    (reports σ : List WorkerReport)
    (hres : reports.map (fun pr => pr.results)
      = (spawnChunks W (fsPaths fs)).map (workerResults fs kws))
    (hp : σ.Perm reports) (hnd : (fsPaths fs).Nodup) (k : String) :
    (lookupD (runMerge σ).results k).Nodup := by
  obtain ⟨hcn, hcd⟩ := spawnChunks_nodup_disjoint W (fsPaths fs) hW hnd
  have hkn := keys_nodup_of_results_eq reports fs kws W hres
  rw [lookupD_runMerge_flatten σ k (fun pr hpr => hkn pr (hp.mem_iff.mp hpr))]
  have hsub : ∀ c, (lookupD (workerResults fs kws c) k).Sublist c := by
    intro c
    rw [lookupD_workerResults]
    by_cases hk : k ∈ dedupFirst kws
    · rw [if_pos hk]; exact List.filter_sublist c
    · rw [if_neg hk]; exact List.nil_sublist c
  have hmapres : reports.map (fun pr => lookupD pr.results k)
      = (spawnChunks W (fsPaths fs)).map (fun c => lookupD (workerResults fs kws c) k) := by
    have : reports.map (fun pr => lookupD pr.results k)
        = (reports.map (fun pr => pr.results)).map (fun d => lookupD d k) := by
      rw [List.map_map]; rfl
    rw [this, hres, List.map_map]
    rfl
  apply List.nodup_flatten.mpr
  constructor
  · intro l hl
    obtain ⟨pr, hpr, rfl⟩ := List.mem_map.mp hl
    have : lookupD pr.results k ∈ reports.map (fun pr => lookupD pr.results k) :=
      List.mem_map.mpr ⟨pr, hp.mem_iff.mp hpr, rfl⟩
    rw [hmapres] at this
    obtain ⟨c, hc, hceq⟩ := List.mem_map.mp this
    rw [← hceq]
    exact ((hsub c).nodup) (hcn c hc)
  · have hpd : ((spawnChunks W (fsPaths fs)).map
        (fun c => lookupD (workerResults fs kws c) k)).Pairwise List.Disjoint := by
      rw [List.pairwise_map]
      refine hcd.imp ?_
      intro a b hab
      exact fun x hx hx2 => hab ((hsub a).subset hx) ((hsub b).subset hx2)
    have hpm : (σ.map (fun pr => lookupD pr.results k)).Perm
        ((spawnChunks W (fsPaths fs)).map (fun c => lookupD (workerResults fs kws c) k)) := by
      rw [← hmapres]
      exact hp.map _
    refine (hpm.pairwise_iff ?_).mpr hpd
    exact fun {a b} hab => hab.symm

/-- Claim C1: for every file list and every worker count W greater than 0,
`split_files_into_chunks` returns exactly W chunks, their ordered
concatenation reproduces the original list exactly, the first (N mod W)
chunks have size (N div W)+1 and the remaining ones size N div W (so sizes
differ by at most 1), and the chunks of a duplicate-free file list are
pairwise disjoint. -/
theorem claim_C1_split_chunks {α : Type} (fl : List α) (W : Nat) (hW : 0 < W) :
    (split_files_into_chunks W fl).length = W
    ∧ (split_files_into_chunks W fl).flatten = fl
    ∧ (split_files_into_chunks W fl).map List.length
        = (List.range W).map
            (fun j => if j < fl.length % W then fl.length / W + 1 else fl.length / W)
    ∧ (∀ a ∈ (split_files_into_chunks W fl).map List.length,
        ∀ b ∈ (split_files_into_chunks W fl).map List.length, a ≤ b + 1)
    ∧ (fl.Nodup → (split_files_into_chunks W fl).Pairwise List.Disjoint) := by
  refine ⟨split_length fl W hW, split_flatten fl W hW, split_map_length fl W hW, ?_, ?_⟩
  · intro a ha b hb
    rw [split_map_length fl W hW] at ha hb
    obtain ⟨i, _, rfl⟩ := List.mem_map.mp ha
    obtain ⟨j, _, rfl⟩ := List.mem_map.mp hb
    split <;> split <;> omega
  · intro hnd
    have hflat : (split_files_into_chunks W fl).flatten.Nodup := by
      rw [split_flatten fl W hW]
      exact hnd
    exact (List.nodup_flatten.mp hflat).2

/-- Witness for C1: the partition of a three-element list over two
workers. -/
theorem claim_C1_split_chunks_witness :
    0 < 2
    ∧ ((split_files_into_chunks 2 ["a", "b", "c"]).length = 2
    ∧ (split_files_into_chunks 2 ["a", "b", "c"]).flatten = ["a", "b", "c"]
    ∧ (split_files_into_chunks 2 ["a", "b", "c"]).map List.length
        = (List.range 2).map
            (fun j => if j < ["a", "b", "c"].length % 2 then ["a", "b", "c"].length / 2 + 1
              else ["a", "b", "c"].length / 2)
    ∧ (∀ a ∈ (split_files_into_chunks 2 ["a", "b", "c"]).map List.length,
        ∀ b ∈ (split_files_into_chunks 2 ["a", "b", "c"]).map List.length, a ≤ b + 1)
    ∧ (["a", "b", "c"].Nodup →
        (split_files_into_chunks 2 ["a", "b", "c"]).Pairwise List.Disjoint)) :=
  ⟨by decide, claim_C1_split_chunks ["a", "b", "c"] 2 (by decide)⟩

/-- Claim C2 (counterexample): the claim as stated fails for keywords that
contain a non-word character: in content "a c+b" the matcher reports the
keyword "c+" as found, although its only occurrence is followed by the word
character b and therefore is not bounded by non-word characters or string
edges. -/
theorem claim_C2_matcher_counterexample :
    searchKeyword "a c+b".data "c+".data = true
    ∧ occursWholeWordCI "a c+b".data "c+".data = false := by
  constructor
  · decide
  · decide

/-- Claim C2 (amended): for every content and every nonempty keyword made
only of word characters (letters, digits, underscore), the matcher reports
the keyword found exactly when the keyword occurs case-insensitively in the
content as a whole word bounded by non-word characters or string edges. -/
theorem claim_C2_matcher_amended (content kw : List Char) (h1 : kw ≠ [])
    (h2 : ∀ c ∈ kw, isWordChar c = true) :
    searchKeyword content kw = occursWholeWordCI content kw :=
  searchKeyword_eq_occursCI content kw h1 h2

/-- Witness for the amended C2 at the spec examples: keyword python against
a content containing Python, PYTHON, pythonic and ipython. -/
theorem claim_C2_matcher_witness :
    ("python".data ≠ [] ∧ (∀ c ∈ "python".data, isWordChar c = true))
    ∧ searchKeyword "Python or PYTHON, not pythonic ipython".data "python".data
        = occursWholeWordCI "Python or PYTHON, not pythonic ipython".data "python".data :=
  ⟨⟨by decide, by decide⟩, claim_C2_matcher_amended _ _ (by decide) (by decide)⟩

/-- Claim C3 (code-bug exhibit): a worker scans the chunk consisting of the
readable b.txt followed by the unreadable c.txt.  In the threading
realization the unreadable file contributes no match for any keyword, the
error counter rises by exactly 1, the match from b.txt is unaffected, and
both files are iterated.  In the multiprocessing realization the identical
scan leaves the worker error count at 0: the exception is printed and
swallowed inside search_keywords_in_file, so the counting except branch of
worker_process never runs. -/
theorem claim_C3_unreadable_file :
    (workerThreadReport fsScenario kwsScenario ["b.txt", "c.txt"]).errors = 1
    ∧ (workerThreadReport fsScenario kwsScenario ["b.txt", "c.txt"]).files_processed = 2
    ∧ (workerThreadReport fsScenario kwsScenario ["b.txt", "c.txt"]).results
        = [("data", ["b.txt"])]
    ∧ (∀ k ∈ kwsScenario,
        "c.txt" ∉ lookupD (workerThreadReport fsScenario kwsScenario ["b.txt", "c.txt"]).results k)
    ∧ (workerProcessReport fsScenario kwsScenario ["b.txt", "c.txt"]).errors = 0
    ∧ (workerProcessReport fsScenario kwsScenario ["b.txt", "c.txt"]).results
        = [("data", ["b.txt"])] := by
  refine ⟨rfl, rfl, by decide, by decide, rfl, by decide⟩

/-- Claim C4 (code-bug exhibit): the spec scenario (a.txt "python
programming", b.txt "data structure", unreadable c.txt, keywords python,
data, missing, two workers).  Both realizations return the expected mapping
(python maps to a.txt, data to b.txt, missing is absent, read through the
empty-default lookup), but the processed count is 3 instead of 2 in both
realizations because unreadable files are still counted as processed, and
the error count is 0 instead of 1 in the multiprocessing realization. -/
theorem claim_C4_scenario :
    threading_search_files (some fsScenario) kwsScenario 2
      = .ok ⟨[("python", ["a.txt"]), ("data", ["b.txt"])], 3, 1, 2⟩
    ∧ mp_search_files (some fsScenario) kwsScenario 2
      = .ok ⟨[("python", ["a.txt"]), ("data", ["b.txt"])], 3, 0, 2⟩
    ∧ lookupD [("python", ["a.txt"]), ("data", ["b.txt"])] "python" = ["a.txt"]
    ∧ lookupD [("python", ["a.txt"]), ("data", ["b.txt"])] "data" = ["b.txt"]
    ∧ lookupD [("python", ["a.txt"]), ("data", ["b.txt"])] "missing" = [] := by
  exact ⟨rfl, rfl, rfl, rfl, rfl⟩

/-- Claim C5 (counterexample): with an existing directory holding one file,
a configured worker count of 0 does not raise in the multiprocessing
realization (the constructor clamps it to 1 and the scan proceeds), and a
negative worker count does not raise in the threading realization (the
chunk loop runs zero times and an empty mapping is returned). -/
theorem claim_C5_fatal_config_counterexample :
    mp_search_files (some [("a.txt", some ['x'])]) ["k"] 0
      = .ok ⟨[], 1, 0, 1⟩
    ∧ threading_search_files (some [("a.txt", some ['x'])]) ["k"] (-1)
      = .ok ⟨[], 0, 0, 0⟩ :=
  ⟨rfl, rfl⟩

/-- Claim C5 (amended): both realizations raise the missing-directory error
before any worker exists; a directory with no matching files yields an
empty outcome with zero spawned workers in both; the threading realization
raises (the division by zero) for worker count 0 exactly when files exist,
while a negative count silently yields an empty outcome with no workers;
the multiprocessing realization clamps the count to at least 1 and never
fails on an existing directory. -/
theorem claim_C5_fatal_config_amended :
    (∀ kws W, threading_search_files none kws W = .error .dirNotFound)
    ∧ (∀ kws W, mp_search_files none kws W = .error .dirNotFound)
    ∧ (∀ fs kws W, fsPaths fs = [] →
        threading_search_files (some fs) kws W = .ok ⟨[], 0, 0, 0⟩)
    ∧ (∀ fs kws W, fsPaths fs = [] →
        mp_search_files (some fs) kws W = .ok ⟨[], 0, 0, 0⟩)
    ∧ (∀ fs kws, fsPaths fs ≠ [] →
        threading_search_files (some fs) kws 0 = .error .zeroWorkers)
    ∧ (∀ fs kws W, W < 0 →
        threading_search_files (some fs) kws W = .ok ⟨[], 0, 0, 0⟩)
    ∧ (∀ fs kws W, ∃ o, mp_search_files (some fs) kws W = .ok o) := by
  refine ⟨fun kws W => rfl, fun kws W => rfl, ?_, ?_, ?_, ?_, ?_⟩
  · intro fs kws W h
    simp only [threading_search_files]
    rw [if_pos (List.isEmpty_iff.mpr h)]
  · intro fs kws W h
    simp only [mp_search_files]
    rw [if_pos (List.isEmpty_iff.mpr h)]
  · intro fs kws h
    simp only [threading_search_files]
    rw [if_neg (by simpa [List.isEmpty_iff] using h)]
    rfl
  · intro fs kws W h
    simp only [threading_search_files]
    by_cases he : (fsPaths fs).isEmpty
    · rw [if_pos he]
    · rw [if_neg he, if_neg (by omega)]
      have hz : W.toNat = 0 := by omega
      rw [hz]
      rfl
  · intro fs kws W
    simp only [mp_search_files]
    by_cases he : (fsPaths fs).isEmpty
    · rw [if_pos he]
      exact ⟨_, rfl⟩
    · rw [if_neg he]
      exact ⟨_, rfl⟩

/-- Witness for the amended C5: a directory with one file and worker count
0 in the threading realization. -/
theorem claim_C5_fatal_config_witness :
    fsPaths [("a.txt", some ['x'])] ≠ []
    ∧ threading_search_files (some [("a.txt", some ['x'])]) ["k"] 0
        = .error .zeroWorkers :=
  ⟨by decide,
    claim_C5_fatal_config_amended.2.2.2.2.1 [("a.txt", some ['x'])] ["k"] (by decide)⟩

/-- Claim C6 (counterexample): in the threading realization a worker-level
fault is not converted into any report: the worker function has no boundary
handler, the thread terminates and the driver receives nothing, contrary to
the claim that both realizations produce a fatal-flagged report. -/
theorem claim_C6_worker_fault_counterexample :
    workerThreadRun true [("a.txt", some ['x'])] ["k"] ["a.txt"] = none := rfl

/-- Claim C6 (amended): a worker-level fault in the multiprocessing
realization is converted at the worker boundary into a report with empty
results, zero processed files, error count 1 and the critical flag, so the
process does not crash; in the threading realization the fault propagates
and the worker thread dies without delivering any report. -/
theorem claim_C6_worker_fault_amended (fs : FS) (kws : List String) (chunk : List String) :
    workerProcessRun true fs kws chunk
      = { results := [], files_processed := 0, errors := 1, critical := true }
    ∧ workerThreadRun true fs kws chunk = none :=
  ⟨rfl, rfl⟩

theorem scheduled_run_values_nonempty (fs : FS) (kws : List String) (W : Nat) (hW : 0 < W)
    (reports σ : List WorkerReport)
    (hres : reports.map (fun pr => pr.results)
      = (spawnChunks W (fsPaths fs)).map (workerResults fs kws))
    (hp : σ.Perm reports) (k : String)
    (hk : k ∈ dictKeys (runMerge σ).results) :
    lookupD (runMerge σ).results k ≠ [] := by
  obtain ⟨hkw, q, hq, hm⟩ := (scheduled_run_keys fs kws W hW reports σ hres hp k).mp hk
  have hqmem : q ∈ lookupD (runMerge σ).results k := by
    rw [mem_lookupD_perm_reports reports σ hp (keys_nodup_of_results_eq reports fs kws W hres) k q]
    rw [exists_report_iff_chunk reports fs kws W hres (fun d => q ∈ lookupD d k)]
    rw [← spawnChunks_flatten W (fsPaths fs) hW] at hq
    obtain ⟨c, hc, hqc⟩ := List.mem_flatten.mp hq
    refine ⟨c, hc, ?_⟩
    rw [lookupD_workerResults fs kws c k, if_pos ((mem_dedupFirst k kws).mpr hkw)]
    exact List.mem_filter.mpr ⟨hqc, hm⟩
  exact List.ne_nil_of_mem hqmem

/-- Claim C7: for identical inputs on which no file read fails, the
threading and the multiprocessing realization produce the same
keyword-to-file-set mapping, whatever order the workers of either
realization merge their results in (the per-keyword lists compared as
sets). -/
theorem claim_C7_model_equivalence (fs : FS) (kws : List String) (W : Nat)
    (st sm : List WorkerReport)
    (hst : st.Perm (threadingReports fs kws W))
    (hsm : sm.Perm (mpReports fs kws W))
    (_hnofail : ∀ p ∈ fsPaths fs, (readFile fs p).isSome = true) :
    ∀ k x, x ∈ lookupD (runMerge st).results k ↔ x ∈ lookupD (runMerge sm).results k := by
  intro k x
  have m1 := mem_lookupD_perm_reports (threadingReports fs kws W) st hst
    (keys_nodup_of_results_eq _ fs kws W (threadingReports_results fs kws W)) k x
  have m2 := mem_lookupD_perm_reports (mpReports fs kws W) sm hsm
    (keys_nodup_of_results_eq _ fs kws W (mpReports_results fs kws W)) k x
  have e1 := exists_report_iff_chunk (threadingReports fs kws W) fs kws W
    (threadingReports_results fs kws W) (fun d => x ∈ lookupD d k)
  have e2 := exists_report_iff_chunk (mpReports fs kws W) fs kws W
    (mpReports_results fs kws W) (fun d => x ∈ lookupD d k)
  exact (m1.trans e1).trans (e2.symm.trans m2.symm)

/-- Witness for C7 on a concrete fault-free directory with two workers and
the canonical schedules. -/
theorem claim_C7_model_equivalence_witness :
    ((threadingReports fsOk ["python", "data"] 2).Perm (threadingReports fsOk ["python", "data"] 2)
    ∧ (mpReports fsOk ["python", "data"] 2).Perm (mpReports fsOk ["python", "data"] 2)
    ∧ (∀ p ∈ fsPaths fsOk, (readFile fsOk p).isSome = true))
    ∧ (∀ k x, x ∈ lookupD (runMerge (threadingReports fsOk ["python", "data"] 2)).results k
        ↔ x ∈ lookupD (runMerge (mpReports fsOk ["python", "data"] 2)).results k) :=
  ⟨⟨List.Perm.refl _, List.Perm.refl _, by decide⟩,
    claim_C7_model_equivalence fsOk ["python", "data"] 2 _ _
      (List.Perm.refl _) (List.Perm.refl _) (by decide)⟩

/-- Claim C8: two runs of the same realization on an unchanged directory
with the same keywords and worker count produce the same
keyword-to-file-set mapping, whatever order the workers of each run merge
their results in (the per-keyword lists compared as sets). -/
theorem claim_C8_rerun_idempotent (fs : FS) (kws : List String) (W : Nat)
    (s1 s2 t1 t2 : List WorkerReport)
    (h1 : s1.Perm (threadingReports fs kws W))
    (h2 : s2.Perm (threadingReports fs kws W))
    (h3 : t1.Perm (mpReports fs kws W))
    (h4 : t2.Perm (mpReports fs kws W)) :
    (∀ k x, x ∈ lookupD (runMerge s1).results k ↔ x ∈ lookupD (runMerge s2).results k)
    ∧ (∀ k x, x ∈ lookupD (runMerge t1).results k ↔ x ∈ lookupD (runMerge t2).results k) := by
  have hknT := keys_nodup_of_results_eq (threadingReports fs kws W) fs kws W
    (threadingReports_results fs kws W)
  have hknM := keys_nodup_of_results_eq (mpReports fs kws W) fs kws W
    (mpReports_results fs kws W)
  constructor
  · intro k x
    exact (mem_lookupD_perm_reports _ s1 h1 hknT k x).trans
      (mem_lookupD_perm_reports _ s2 h2 hknT k x).symm
  · intro k x
    exact (mem_lookupD_perm_reports _ t1 h3 hknM k x).trans
      (mem_lookupD_perm_reports _ t2 h4 hknM k x).symm

/-- Witness for C8 on the scenario directory with the canonical
schedules. -/
theorem claim_C8_rerun_idempotent_witness :
    ((threadingReports fsScenario kwsScenario 2).Perm (threadingReports fsScenario kwsScenario 2)
    ∧ (mpReports fsScenario kwsScenario 2).Perm (mpReports fsScenario kwsScenario 2))
    ∧ ((∀ k x, x ∈ lookupD (runMerge (threadingReports fsScenario kwsScenario 2)).results k
        ↔ x ∈ lookupD (runMerge (threadingReports fsScenario kwsScenario 2)).results k)
    ∧ (∀ k x, x ∈ lookupD (runMerge (mpReports fsScenario kwsScenario 2)).results k
        ↔ x ∈ lookupD (runMerge (mpReports fsScenario kwsScenario 2)).results k)) :=
  ⟨⟨List.Perm.refl _, List.Perm.refl _⟩,
    claim_C8_rerun_idempotent fsScenario kwsScenario 2 _ _ _ _
      (List.Perm.refl _) (List.Perm.refl _) (List.Perm.refl _) (List.Perm.refl _)⟩

/-- Claim C10: in both realizations (any merge order), the returned mapping
has a key for a keyword exactly when at least one file matched it; present
keys are never bound to an empty list; and no keyword list contains a file
path twice, provided the enumerated paths are distinct. -/
theorem claim_C10_mapping_shape (fs : FS) (kws : List String) (W : Nat) (hW : 0 < W)
    (σ : List WorkerReport)
    (hσ : σ.Perm (threadingReports fs kws W) ∨ σ.Perm (mpReports fs kws W))
    (hnd : (fsPaths fs).Nodup) :
    (∀ k, k ∈ dictKeys (runMerge σ).results
        ↔ k ∈ kws ∧ ∃ q ∈ fsPaths fs, fileMatches fs q k = true)
    ∧ (∀ k, k ∈ dictKeys (runMerge σ).results → lookupD (runMerge σ).results k ≠ [])
    ∧ (∀ k, (lookupD (runMerge σ).results k).Nodup) := by
  rcases hσ with hp | hp
  · exact ⟨fun k => scheduled_run_keys fs kws W hW _ σ (threadingReports_results fs kws W) hp k,
      fun k hk => scheduled_run_values_nonempty fs kws W hW _ σ
        (threadingReports_results fs kws W) hp k hk,
      fun k => scheduled_run_nodup fs kws W hW _ σ
        (threadingReports_results fs kws W) hp hnd k⟩
  · exact ⟨fun k => scheduled_run_keys fs kws W hW _ σ (mpReports_results fs kws W) hp k,
      fun k hk => scheduled_run_values_nonempty fs kws W hW _ σ
        (mpReports_results fs kws W) hp k hk,
      fun k => scheduled_run_nodup fs kws W hW _ σ
        (mpReports_results fs kws W) hp hnd k⟩

/-- Witness for C10 on the scenario directory (which contains an unreadable
file), threading realization, canonical schedule. -/
theorem claim_C10_mapping_shape_witness :
    (0 < 2
    ∧ ((threadingReports fsScenario kwsScenario 2).Perm (threadingReports fsScenario kwsScenario 2)
        ∨ (threadingReports fsScenario kwsScenario 2).Perm (mpReports fsScenario kwsScenario 2))
    ∧ (fsPaths fsScenario).Nodup)
    ∧ ((∀ k, k ∈ dictKeys (runMerge (threadingReports fsScenario kwsScenario 2)).results
        ↔ k ∈ kwsScenario ∧ ∃ q ∈ fsPaths fsScenario, fileMatches fsScenario q k = true)
    ∧ (∀ k, k ∈ dictKeys (runMerge (threadingReports fsScenario kwsScenario 2)).results →
        lookupD (runMerge (threadingReports fsScenario kwsScenario 2)).results k ≠ [])
    ∧ (∀ k, (lookupD (runMerge (threadingReports fsScenario kwsScenario 2)).results k).Nodup)) :=
  ⟨⟨by decide, Or.inl (List.Perm.refl _), by decide⟩,
    claim_C10_mapping_shape fsScenario kwsScenario 2 (by decide) _
      (Or.inl (List.Perm.refl _)) (by decide)⟩
